import Mathlib

/-
Verification of the person record manager (src/3.py): JSON person records
validated against a fixed jsonschema, dates parsed and re-serialized with
the format string given by percent-d dot percent-m dot percent-Y, a stable
sort by zodiac sign on insertion, a birth-month filter, and JSON save/load.
The Python code is shallowly embedded below; machine-level concerns (file
handles, the click CLI layer) are out of scope, so load/save are modelled
on the decoded JSON array.
-/

namespace Data3

/-- JSON values as produced by `json.load`: objects are association lists
in textual order (Python dicts preserve insertion order and have no
duplicate keys). -/
inductive Json : Type where
  | null : Json
  | bool : Bool → Json
  | num : Int → Json
  | str : String → Json
  | arr : List Json → Json
  | obj : List (String × Json) → Json

/-- Calendar dates, the payload of Python `datetime` values as used by the
program (the time-of-day part is always midnight and never observed). -/
structure Date : Type where
  year : Nat
  month : Nat
  day : Nat
deriving DecidableEq, Repr

/-- Gregorian leap-year rule (Python `datetime`). -/
def isLeap (y : Nat) : Bool :=
  y % 4 == 0 && (y % 100 != 0 || y % 400 == 0)

/-- Number of days of month `m` of year `y` (Python `datetime`). -/
def daysInMonth (y m : Nat) : Nat :=
  if m == 2 then (if isLeap y then 29 else 28)
  else if m == 4 || m == 6 || m == 9 || m == 11 then 30
  else 31

/-- Dates representable by Python `datetime`: year 1..9999, valid month
and day. -/
def Date.valid (d : Date) : Bool :=
  decide (1 ≤ d.year ∧ d.year ≤ 9999 ∧ 1 ≤ d.month ∧ d.month ≤ 12 ∧
    1 ≤ d.day ∧ d.day ≤ daysInMonth d.year d.month)

/-- Numeric value of a decimal digit character. -/
def digitVal (c : Char) : Nat := c.toNat - 48

/-- Value of a big-endian list of decimal digit characters. -/
def digitsToNat (cs : List Char) : Nat :=
  cs.foldl (fun acc c => 10 * acc + digitVal c) 0

/-- Big-endian decimal digits of a natural number (no leading zeros;
`0` renders as the single digit `0`). -/
def natDigits (n : Nat) : List Char :=
  if n < 10 then [Char.ofNat (48 + n)]
  else natDigits (n / 10) ++ [Char.ofNat (48 + n % 10)]
termination_by n
decreasing_by
  exact Nat.div_lt_self (by omega) (by omega)

/-- Decimal rendering of a natural number as a string. -/
def natToString (n : Nat) : String := ⟨natDigits n⟩

/-- Left-pad a digit list with zeros to width `w` (C `strftime` zero
padding). -/
def padZeros (w : Nat) (cs : List Char) : List Char :=
  List.replicate (w - cs.length) '0' ++ cs

/-- Split a character list at every dot, mirroring how the literal dots
of the format string separate the three fields in `_strptime`. -/
def splitDots : List Char → List (List Char)
  | [] => [[]]
  | c :: rest =>
    if c == '.' then [] :: splitDots rest
    else
      match splitDots rest with
      | [] => [[c]]
      | p :: ps => (c :: p) :: ps

/-- One numeric field of `_strptime`: between 1 and `maxLen` decimal
digits whose value lies in `lo..hi` (the regex for percent-d is 1-2
digits valued 1..31, for percent-m 1-2 digits valued 1..12). -/
def parseField (maxLen lo hi : Nat) (cs : List Char) : Option Nat :=
  if 1 ≤ cs.length ∧ cs.length ≤ maxLen ∧ cs.all Char.isDigit = true ∧
      lo ≤ digitsToNat cs ∧ digitsToNat cs ≤ hi then
    some (digitsToNat cs)
  else none

/-- Model of `datetime.strptime(s, <percent-d.percent-m.percent-Y>)`:
day 1-2 digits in 1..31, month 1-2 digits in 1..12, year exactly 4
digits, the whole string consumed; the `datetime` constructor then
rejects year 0 and a day beyond the length of the month. Any failure
raises `ValueError` in Python, modelled as `none`. -/
def strptime_dmY (s : String) : Option Date :=
  match splitDots s.data with
  | [ds, ms, ys] =>
    match parseField 2 1 31 ds, parseField 2 1 12 ms with
    | some d, some m =>
      if ys.length = 4 ∧ ys.all Char.isDigit = true then
        let y := digitsToNat ys
        if 1 ≤ y ∧ d ≤ daysInMonth y m then some ⟨y, m, d⟩ else none
      else none
    | _, _ => none
  | _ => none

/-- Model of `date.strftime(<percent-d.percent-m.percent-Y>)`: day and
month zero-padded to two digits, year to four digits, separated by
dots. -/
def strftime_dmY (d : Date) : String :=
  ⟨padZeros 2 (natDigits d.day) ++ '.' ::
    (padZeros 2 (natDigits d.month) ++ '.' :: padZeros 4 (natDigits d.year))⟩

/-- The `required` list of `person_schema`. -/
def requiredKeys : List String :=
  ["name", "surname", "date_of_birth", "zodiac_sign"]

/-- Key lookup in a JSON object (Python dict access; keys are unique in
dicts, the first occurrence decides). -/
def lookupJ (fields : List (String × Json)) (k : String) : Option Json :=
  (fields.find? (fun kv => kv.1 == k)).map (fun kv => kv.2)

/-- The `properties` check of the schema for one key: if the key is
present its value must be a string. `jsonschema.validate` is called
without a format checker, so the `format: date` annotation on
`date_of_birth` is not enforced. -/
def propOk (fields : List (String × Json)) (k : String) : Bool :=
  match lookupJ fields k with
  | none => true
  | some (Json.str _) => true
  | some _ => false

/-- First violation `jsonschema.validate` finds for `person_schema`, or
`none` when the instance conforms: the instance must be an object, the
four required keys must be present, and each of the four listed
properties, when present, must be a string. Extra keys are not
constrained (the schema has no `additionalProperties`). -/
def schemaError (j : Json) : Option String :=
  match j with
  | Json.obj fields =>
    if ¬ (requiredKeys.all (fun k => (lookupJ fields k).isSome)) = true then
      some "required property is missing"
    else if ¬ (requiredKeys.all (fun k => propOk fields k)) = true then
      some "value is not of type string"
    else none
  | _ => some "instance is not of type object"

/-- `validate_person`: `jsonschema.validate` inside try/except returning
a boolean verdict. -/
def validate_person (j : Json) : Bool := (schemaError j).isNone

/-- Diagnostic printed by `validate_person` on failure. -/
def schemaErrMsg (e : String) : String :=
  "Данные человека не соответствуют схеме: " ++ e

/-- The lines `validate_person` prints: one diagnostic naming the cause
on failure, nothing on success. -/
def validateDiag (j : Json) : List String :=
  match schemaError j with
  | some e => [schemaErrMsg e]
  | none => []

/-- Value stored in an in-memory person dict: either a plain JSON value
or a parsed `datetime` (only ever placed under `date_of_birth`). -/
inductive PValue : Type where
  | js : Json → PValue
  | date : Date → PValue

/-- An in-memory person: the Python dict, as an association list in
insertion order. -/
abbrev Person := List (String × PValue)

/-- Dict access `person.get(k)` / `person[k]`. -/
def pget (p : Person) (k : String) : Option PValue :=
  (p.find? (fun kv => kv.1 == k)).map (fun kv => kv.2)

/-- The in-place update `person[date_of_birth] = parsed`: the existing
entry keeps its position, all other entries stay JSON values. -/
def setParsedDate (fields : List (String × Json)) (d : Date) : Person :=
  fields.map (fun kv =>
    if kv.1 == "date_of_birth" then (kv.1, PValue.date d)
    else (kv.1, PValue.js kv.2))

/-- Diagnostic printed by `load_people` when the date of record number
`cnt` (1-based) fails to parse. -/
def dateErrMsg (cnt : Nat) : String :=
  "Ошибка при разборе даты в записи, пропуск записи " ++ natToString cnt ++ "."

/-- Diagnostic printed by `load_people` when a record fails validation. -/
def invalidMsg : String := "Неверные данные человека, пропуск записи."

/-- The try-block of `load_people` for one raw record: read the
`date_of_birth` entry, parse it, store the parsed date back into the
dict. Any exception (missing key, non-string value, unparsable text) is
caught by the bare `except`, giving `none`. -/
def parsedOf (j : Json) : Option Person :=
  match j with
  | Json.obj fields =>
    match lookupJ fields "date_of_birth" with
    | some (Json.str s) => (strptime_dmY s).map (setParsedDate fields)
    | _ => none
  | _ => none

/-- One iteration of the `load_people` loop on record number `cnt`:
the accepted person (if any) and the diagnostics printed. -/
def loadStep (cnt : Nat) (j : Json) : Option Person × List String :=
  if validate_person j then
    match parsedOf j with
    | some p => (some p, [])
    | none => (none, [dateErrMsg cnt])
  else
    (none, [schemaErrMsg ((schemaError j).getD "") , invalidMsg])

/-- The `load_people` loop over the decoded array, threading the
1-based record counter `cnt`. -/
def loadLoop (cnt : Nat) : List Json → List Person × List String
  | [] => ([], [])
  | j :: rest =>
    let step := loadStep (cnt + 1) j
    let tail := loadLoop (cnt + 1) rest
    (step.1.toList ++ tail.1, step.2 ++ tail.2)

/-- `load_people` on the decoded JSON array: the accepted people in file
order, together with the diagnostics printed. -/
def load_people (staff_loaded : List Json) : List Person × List String :=
  loadLoop 0 staff_loaded

/-- Acceptance function characterizing which raw records `load_people`
keeps and how it transforms them. -/
def acceptPerson (j : Json) : Option Person :=
  if validate_person j then parsedOf j else none

/-- Sort key of `people.sort(key=lambda item: item.get(zodiac_sign, ))`:
the stored zodiac string, the empty string when absent. -/
def zodiacKeyStr (p : Person) : String :=
  match pget p "zodiac_sign" with
  | some (PValue.js (Json.str s)) => s
  | _ => ""

/-- Boolean comparison used for the stable sort by zodiac sign. -/
def personLE (a b : Person) : Bool :=
  decide (zodiacKeyStr a ≤ zodiacKeyStr b)

/-- The fresh dict built by `add_person`. -/
def mkPerson (name surname : String) (d : Date) (zodiac_sign : String) : Person :=
  [("name", PValue.js (Json.str name)),
   ("surname", PValue.js (Json.str surname)),
   ("date_of_birth", PValue.date d),
   ("zodiac_sign", PValue.js (Json.str zodiac_sign))]

/-- `add_person`: parse the date text (a `ValueError` here aborts the
command before anything is appended, modelled as `none`), append the
fresh record, stable-sort the whole list by zodiac sign. -/
def add_person (people : List Person) (name surname date_of_birth zodiac_sign : String) :
    Option (List Person) :=
  match strptime_dmY date_of_birth with
  | none => none
  | some d =>
    some ((people ++ [mkPerson name surname d zodiac_sign]).mergeSort personLE)

/-- Month of a person taken by `person.get(date_of_birth).month`;
`none` models the `AttributeError` when no parsed date is stored. -/
def personMonthOpt (p : Person) : Option Nat :=
  match pget p "date_of_birth" with
  | some (PValue.date d) => some d.month
  | _ => none

/-- String field access `person.get(k, )` with empty-string default, as
used for name and surname in the output lines. -/
def sgetStr (p : Person) (k : String) : String :=
  match pget p k with
  | some (PValue.js (Json.str s)) => s
  | _ => ""

/-- Right-justify in a field of width `w` (the format spec `:>4`). -/
def rjust (w : Nat) (s : String) : String :=
  ⟨List.replicate (w - s.length) ' ' ++ s.data⟩

/-- One output line of `select_people` for match number `count`. -/
def selectLine (count : Nat) (p : Person) : String :=
  rjust 4 (natToString count) ++ ": " ++ sgetStr p "name" ++ " " ++ sgetStr p "surname"

/-- Notice printed by `select_people` when nothing matches. -/
def noMatchMsg : String := "Люди, родившиеся в указанном месяце, не найдены."

/-- Does a person match the requested month? The CLI month is an
arbitrary `int`. -/
def matchesMonth (month : Int) (p : Person) : Bool :=
  match personMonthOpt p with
  | some mo => (mo : Int) == month
  | none => false

/-- Loop of `select_people`: final match counter and the lines printed
for matches; `none` models the fatal `AttributeError` on a record
without a parsed date. -/
def selectLoop (count : Nat) (month : Int) : List Person → Option (Nat × List String)
  | [] => some (count, [])
  | p :: rest =>
    match personMonthOpt p with
    | none => none
    | some mo =>
      if (mo : Int) == month then
        match selectLoop (count + 1) month rest with
        | some res => some (res.1, selectLine (count + 1) p :: res.2)
        | none => none
      else selectLoop count month rest

/-- `select_people`: all lines printed, the no-match notice appended
when the counter stayed at zero. -/
def select_people (people : List Person) (month : Int) : Option (List String) :=
  match selectLoop 0 month people with
  | some res => some (if res.1 == 0 then res.2 ++ [noMatchMsg] else res.2)
  | none => none

/-- The numbered match lines, counting from `k + 1`; the spec-side shape
of the `select_people` output. -/
def numberedFrom (k : Nat) : List Person → List String
  | [] => []
  | p :: ps => selectLine (k + 1) p :: numberedFrom (k + 1) ps

/-- JSON value serializable by `json.dump`: a parsed `datetime` left
under any key other than `date_of_birth` would make `json.dump` raise
`TypeError`, modelled as `none`. -/
def jsonOfPValue : PValue → Option Json
  | PValue.js j => some j
  | PValue.date _ => none

/-- The dict comprehension of `save_people` on one person: every entry
kept in place, the `date_of_birth` value replaced by its `strftime`
rendering on a fresh dict. -/
def saveFields (d : Date) : List (String × PValue) → Option (List (String × Json))
  | [] => some []
  | kv :: rest =>
    match (if kv.1 == "date_of_birth" then some (Json.str (strftime_dmY d))
           else jsonOfPValue kv.2),
          saveFields d rest with
    | some j, some tail => some ((kv.1, j) :: tail)
    | _, _ => none

/-- Serialize one person for `save_people`; `none` models the fatal
`AttributeError` when no parsed date is stored under `date_of_birth`. -/
def save_person (p : Person) : Option Json :=
  match pget p "date_of_birth" with
  | some (PValue.date d) => (saveFields d p).map Json.obj
  | _ => none

/-- `save_people`: the JSON array written to the file. -/
def save_people (staff : List Person) : Option (List Json) :=
  staff.mapM save_person

/-- State-passing reading of `save_people`: alongside the serialized
output, the list of person dicts as they stand after the call. The
comprehension builds each formatted record as a fresh dict, so each
iteration hands the stored dict back unchanged. -/
def save_people_run : List Person → Option (List Json) × List Person
  | [] => (some [], [])
  | person :: rest =>
    let fj := save_person person
    let tail := save_people_run rest
    (match fj, tail.1 with
     | some j, some js => some (j :: js)
     | _, _ => none,
     person :: tail.2)

/-- Specification-side predicate: the object has exactly the four
required keys and no others (the reading of the schema under which extra
keys would be rejected). -/
def keysExactlyRequired (j : Json) : Bool :=
  match j with
  | Json.obj fields =>
    requiredKeys.all (fun k => (lookupJ fields k).isSome) &&
      fields.all (fun kv => requiredKeys.contains kv.1)
  | _ => false

/-- Specification-side predicate: the stored `date_of_birth` string is
interpretable as a calendar date in the fixed textual format. -/
def dateFieldParses (j : Json) : Bool :=
  match j with
  | Json.obj fields =>
    match lookupJ fields "date_of_birth" with
    | some (Json.str s) => (strptime_dmY s).isSome
    | _ => false
  | _ => false

/-- Specification-side characterization of what the schema, as the code
runs it, actually accepts: an object whose four required keys are all
present and string-typed; nothing else is constrained. -/
def validSchemaSpec (j : Json) : Bool :=
  match j with
  | Json.obj fields =>
    requiredKeys.all (fun k =>
      match lookupJ fields k with
      | some (Json.str _) => true
      | _ => false)
  | _ => false

/-- A date rendered without zero padding on day and month (the year kept
at four digits, as the parser demands). -/
def unpaddedDMY (d : Date) : String :=
  ⟨natDigits d.day ++ '.' ::
    (natDigits d.month ++ '.' :: padZeros 4 (natDigits d.year))⟩

/-- A person carrying a parsed, representable date under
`date_of_birth`. -/
def hasValidDate (p : Person) : Bool :=
  match pget p "date_of_birth" with
  | some (PValue.date d) => d.valid
  | _ => false

/-- Well-formed in-memory person, as produced by `load_people` or
`add_person`: the three text fields are stored as JSON strings, a
parsed representable date sits under `date_of_birth`, keys are unique
(Python dicts), and no other entry holds a `datetime`. -/
def WFperson (p : Person) : Bool :=
  (match pget p "name" with
   | some (PValue.js (Json.str _)) => true
   | _ => false) &&
  (match pget p "surname" with
   | some (PValue.js (Json.str _)) => true
   | _ => false) &&
  (match pget p "zodiac_sign" with
   | some (PValue.js (Json.str _)) => true
   | _ => false) &&
  hasValidDate p &&
  decide (List.Nodup (p.map Prod.fst)) &&
  p.all (fun kv => kv.1 == "date_of_birth" || (jsonOfPValue kv.2).isSome)

/-- The per-entry transformation `save_people` applies when it
succeeds. -/
def saveValue (d : Date) (kv : String × PValue) : String × Json :=
  (kv.1,
   if kv.1 == "date_of_birth" then Json.str (strftime_dmY d)
   else
     match kv.2 with
     | PValue.js j => j
     | PValue.date _ => Json.null)

/-- Concrete raw record with an extra key and an unparsable date: all
four required keys are present and string-typed. -/
def cexRecord : Json :=
  Json.obj [("name", Json.str "Anna"), ("surname", Json.str "Ivanova"),
    ("date_of_birth", Json.str "not-a-date"), ("zodiac_sign", Json.str "Pisces"),
    ("note", Json.str "extra")]

/-- Concrete raw record that validates but whose date has no 31st of
April. -/
def exBadDate : Json :=
  Json.obj [("name", Json.str "Boris"), ("surname", Json.str "Petrov"),
    ("date_of_birth", Json.str "31.04.2001"), ("zodiac_sign", Json.str "Aries")]

/-- Concrete raw record fields with an extra key and a well-formed
date. -/
def exFieldsX : List (String × Json) :=
  [("name", Json.str "Anna"), ("surname", Json.str "Ivanova"),
    ("date_of_birth", Json.str "15.03.1990"), ("zodiac_sign", Json.str "Pisces"),
    ("note", Json.str "extra")]

/-! Digit and rendering lemmas. -/

theorem digitsToNat_append_singleton (xs : List Char) (c : Char) :
    digitsToNat (xs ++ [c]) = 10 * digitsToNat xs + digitVal c := by
  simp [digitsToNat, List.foldl_append]

theorem digit_facts (r : Nat) (h : r < 10) :
    (Char.ofNat (48 + r)).isDigit = true ∧ digitVal (Char.ofNat (48 + r)) = r := by
  interval_cases r <;> exact ⟨by decide, by decide⟩

theorem natDigits_all_digits (n : Nat) : (natDigits n).all Char.isDigit = true := by
  induction n using Nat.strong_induction_on with
  | _ n ih =>
    rw [natDigits]
    split
    · rename_i h
      simp [List.all_cons, (digit_facts n h).1]
    · rename_i h
      have h10 : ¬ n < 10 := h
      have hd := (digit_facts (n % 10) (Nat.mod_lt _ (by omega))).1
      have := ih (n / 10) (Nat.div_lt_self (by omega) (by omega))
      simp_all [List.all_append, List.all_cons]

theorem digitsToNat_natDigits (n : Nat) : digitsToNat (natDigits n) = n := by
  induction n using Nat.strong_induction_on with
  | _ n ih =>
    rw [natDigits]
    split
    · rename_i h
      have := (digit_facts n h).2
      simp [digitsToNat, this]
    · rename_i h
      have h10 : ¬ n < 10 := h
      rw [digitsToNat_append_singleton, ih (n / 10) (Nat.div_lt_self (by omega) (by omega)),
        (digit_facts (n % 10) (Nat.mod_lt _ (by omega))).2]
      omega

theorem natDigits_length_pos (n : Nat) : 1 ≤ (natDigits n).length := by
  rw [natDigits]
  split <;> simp

theorem natDigits_length_le (k : Nat) :
    ∀ (n : Nat), 1 ≤ k → n < 10 ^ k → (natDigits n).length ≤ k := by
  induction k with
  | zero => omega
  | succ k ih =>
    intro n _ hn
    rw [natDigits]
    split
    · simp
    · rename_i h
      have h10 : ¬ n < 10 := h
      have hk1 : 1 ≤ k := by
        by_contra hk
        have : k = 0 := by omega
        subst this
        simp at hn
        omega
      have hdiv : n / 10 < 10 ^ k := by
        have : 10 ^ (k + 1) = 10 ^ k * 10 := by ring
        rw [Nat.div_lt_iff_lt_mul (by omega)]
        omega
      have := ih (n / 10) hk1 hdiv
      simp only [List.length_append, List.length_cons, List.length_nil]
      omega

theorem length_padZeros (w : Nat) (cs : List Char) :
    (padZeros w cs).length = max w cs.length := by
  simp [padZeros]
  omega

theorem all_digits_padZeros (w : Nat) (cs : List Char)
    (h : cs.all Char.isDigit = true) : (padZeros w cs).all Char.isDigit = true := by
  simp only [padZeros, List.all_append, Bool.and_eq_true]
  refine ⟨?_, h⟩
  simp only [List.all_eq_true]
  intro c hc
  rw [List.eq_of_mem_replicate hc]
  decide

theorem digitsToNat_padZeros (w : Nat) (cs : List Char) :
    digitsToNat (padZeros w cs) = digitsToNat cs := by
  have hz : ∀ m : Nat, List.foldl (fun acc c => 10 * acc + digitVal c) 0
      (List.replicate m '0') = 0 := by
    intro m
    induction m with
    | zero => rfl
    | succ m ih => simpa [List.replicate_succ, digitVal] using ih
  simp [padZeros, digitsToNat, List.foldl_append, hz]

theorem no_dot_of_all_digits (cs : List Char) (h : cs.all Char.isDigit = true) :
    ∀ c ∈ cs, (c == '.') = false := by
  intro c hc
  simp only [List.all_eq_true] at h
  have hd := h c hc
  by_contra hne
  rw [Bool.not_eq_false, beq_iff_eq] at hne
  subst hne
  simp at hd

/-! Splitting lemmas for the dot-separated date format. -/

theorem splitDots_no_dot (cs : List Char) (h : ∀ c ∈ cs, (c == '.') = false) :
    splitDots cs = [cs] := by
  induction cs with
  | nil => rfl
  | cons c rest ih =>
    have hc := h c (by simp)
    have hrest := ih (fun x hx => h x (by simp [hx]))
    simp [splitDots, hc, hrest]

theorem splitDots_append (a rest : List Char) (h : ∀ c ∈ a, (c == '.') = false) :
    splitDots (a ++ '.' :: rest) = a :: splitDots rest := by
  induction a with
  | nil => simp [splitDots]
  | cons c tail ih =>
    have hc := h c (by simp)
    have htail := ih (fun x hx => h x (by simp [hx]))
    simp only [List.cons_append, splitDots, hc, Bool.false_eq_true, if_false]
    rw [← List.append_eq] at htail
    rw [htail]

/-! Round-trip of the date format. -/

theorem strptime_strftime (d : Date) (h : d.valid = true) :
    strptime_dmY (strftime_dmY d) = some d := by
  rw [Date.valid, decide_eq_true_eq] at h
  obtain ⟨hy1, hy2, hm1, hm2, hd1, hd2⟩ := h
  have hdm : daysInMonth d.year d.month ≤ 31 := by
    rw [daysInMonth]
    split
    · split <;> omega
    · split <;> omega
  have hda : (padZeros 2 (natDigits d.day)).all Char.isDigit = true :=
    all_digits_padZeros _ _ (natDigits_all_digits _)
  have hma : (padZeros 2 (natDigits d.month)).all Char.isDigit = true :=
    all_digits_padZeros _ _ (natDigits_all_digits _)
  have hya : (padZeros 4 (natDigits d.year)).all Char.isDigit = true :=
    all_digits_padZeros _ _ (natDigits_all_digits _)
  have hdl : (padZeros 2 (natDigits d.day)).length = 2 := by
    rw [length_padZeros]
    have := natDigits_length_le 2 d.day (by omega) (by omega)
    have := natDigits_length_pos d.day
    omega
  have hml : (padZeros 2 (natDigits d.month)).length = 2 := by
    rw [length_padZeros]
    have := natDigits_length_le 2 d.month (by omega) (by omega)
    have := natDigits_length_pos d.month
    omega
  have hyl : (padZeros 4 (natDigits d.year)).length = 4 := by
    rw [length_padZeros]
    have := natDigits_length_le 4 d.year (by omega) (by omega)
    have := natDigits_length_pos d.year
    omega
  have hdv : digitsToNat (padZeros 2 (natDigits d.day)) = d.day := by
    rw [digitsToNat_padZeros, digitsToNat_natDigits]
  have hmv : digitsToNat (padZeros 2 (natDigits d.month)) = d.month := by
    rw [digitsToNat_padZeros, digitsToNat_natDigits]
  have hyv : digitsToNat (padZeros 4 (natDigits d.year)) = d.year := by
    rw [digitsToNat_padZeros, digitsToNat_natDigits]
  have hdata : (strftime_dmY d).data = padZeros 2 (natDigits d.day) ++ '.' ::
      (padZeros 2 (natDigits d.month) ++ '.' :: padZeros 4 (natDigits d.year)) := rfl
  have hsplit : splitDots (strftime_dmY d).data =
      [padZeros 2 (natDigits d.day), padZeros 2 (natDigits d.month),
        padZeros 4 (natDigits d.year)] := by
    rw [hdata, splitDots_append _ _ (no_dot_of_all_digits _ hda),
      splitDots_append _ _ (no_dot_of_all_digits _ hma),
      splitDots_no_dot _ (no_dot_of_all_digits _ hya)]
  have hpd : parseField 2 1 31 (padZeros 2 (natDigits d.day)) = some d.day := by
    unfold parseField
    rw [if_pos (by rw [hdl, hdv]; exact ⟨by omega, by omega, hda, by omega, by omega⟩), hdv]
  have hpm : parseField 2 1 12 (padZeros 2 (natDigits d.month)) = some d.month := by
    unfold parseField
    rw [if_pos (by rw [hml, hmv]; exact ⟨by omega, by omega, hma, by omega, by omega⟩), hmv]
  rw [strptime_dmY, hsplit]
  simp only [hpd, hpm, hyl, hya, and_self, if_true, hyv]
  rw [if_pos ⟨by omega, by omega⟩]

theorem strptime_unpadded (d : Date) (h : d.valid = true) :
    strptime_dmY (unpaddedDMY d) = some d := by
  rw [Date.valid, decide_eq_true_eq] at h
  obtain ⟨hy1, hy2, hm1, hm2, hd1, hd2⟩ := h
  have hdm : daysInMonth d.year d.month ≤ 31 := by
    rw [daysInMonth]
    split
    · split <;> omega
    · split <;> omega
  have hda := natDigits_all_digits d.day
  have hma := natDigits_all_digits d.month
  have hya : (padZeros 4 (natDigits d.year)).all Char.isDigit = true :=
    all_digits_padZeros _ _ (natDigits_all_digits _)
  have hyl : (padZeros 4 (natDigits d.year)).length = 4 := by
    rw [length_padZeros]
    have := natDigits_length_le 4 d.year (by omega) (by omega)
    have := natDigits_length_pos d.year
    omega
  have hyv : digitsToNat (padZeros 4 (natDigits d.year)) = d.year := by
    rw [digitsToNat_padZeros, digitsToNat_natDigits]
  have hdata : (unpaddedDMY d).data = natDigits d.day ++ '.' ::
      (natDigits d.month ++ '.' :: padZeros 4 (natDigits d.year)) := rfl
  have hsplit : splitDots (unpaddedDMY d).data =
      [natDigits d.day, natDigits d.month, padZeros 4 (natDigits d.year)] := by
    rw [hdata, splitDots_append _ _ (no_dot_of_all_digits _ hda),
      splitDots_append _ _ (no_dot_of_all_digits _ hma),
      splitDots_no_dot _ (no_dot_of_all_digits _ hya)]
  have hpd : parseField 2 1 31 (natDigits d.day) = some d.day := by
    unfold parseField
    have h2 := natDigits_length_le 2 d.day (by omega) (by omega)
    have h1 := natDigits_length_pos d.day
    rw [if_pos (by
      rw [digitsToNat_natDigits]
      exact ⟨by omega, by omega, hda, by omega, by omega⟩), digitsToNat_natDigits]
  have hpm : parseField 2 1 12 (natDigits d.month) = some d.month := by
    unfold parseField
    have h2 := natDigits_length_le 2 d.month (by omega) (by omega)
    have h1 := natDigits_length_pos d.month
    rw [if_pos (by
      rw [digitsToNat_natDigits]
      exact ⟨by omega, by omega, hma, by omega, by omega⟩), digitsToNat_natDigits]
  rw [strptime_dmY, hsplit]
  simp only [hpd, hpm, hyl, hya, and_self, if_true, hyv]
  rw [if_pos ⟨by omega, by omega⟩]

/-! Validation lemmas. -/

theorem validate_person_eq_spec (j : Json) : validate_person j = validSchemaSpec j := by
  cases j <;> try rfl
  rename_i fields
  simp only [validate_person, schemaError, validSchemaSpec, requiredKeys, propOk,
    List.all_cons, List.all_nil, Bool.and_true]
  rcases lookupJ fields "name" with _ | j1 <;>
    rcases lookupJ fields "surname" with _ | j2 <;>
      rcases lookupJ fields "date_of_birth" with _ | j3 <;>
        rcases lookupJ fields "zodiac_sign" with _ | j4 <;>
          first
          | rfl
          | ((try cases j1) <;> (try cases j2) <;> (try cases j3) <;> (try cases j4) <;> rfl)

/-! Load lemmas. -/

theorem loadStep_fst (cnt : Nat) (j : Json) : (loadStep cnt j).1 = acceptPerson j := by
  rw [loadStep, acceptPerson]
  cases hv : validate_person j
  · simp
  · simp only [if_true]
    cases parsedOf j <;> rfl

theorem loadStep_snd_dateErr (cnt : Nat) (j : Json) (hv : validate_person j = true)
    (hp : parsedOf j = none) : (loadStep cnt j).2 = [dateErrMsg cnt] := by
  simp [loadStep, hv, hp]

theorem loadStep_snd_invalid (cnt : Nat) (j : Json) (hv : validate_person j = false) :
    (loadStep cnt j).2 = [schemaErrMsg ((schemaError j).getD "") , invalidMsg] := by
  simp [loadStep, hv]

theorem loadStep_snd_ok (cnt : Nat) (j : Json) (h : acceptPerson j ≠ none) :
    (loadStep cnt j).2 = [] := by
  cases hv : validate_person j
  · exfalso
    apply h
    simp [acceptPerson, hv]
  · rcases hp : parsedOf j with _ | p
    · exfalso
      apply h
      simp [acceptPerson, hv, hp]
    · simp [loadStep, hv, hp]

theorem loadLoop_fst (js : List Json) : ∀ cnt : Nat,
    (loadLoop cnt js).1 = js.filterMap acceptPerson := by
  induction js with
  | nil => intro _; rfl
  | cons j rest ih =>
    intro cnt
    simp only [loadLoop, List.filterMap_cons]
    rw [loadStep_fst, ih (cnt + 1)]
    cases acceptPerson j <;> simp

theorem loadLoop_dateErr_mem (js : List Json) : ∀ (cnt i : Nat) (h : i < js.length),
    validate_person js[i] = true → parsedOf js[i] = none →
    dateErrMsg (cnt + i + 1) ∈ (loadLoop cnt js).2 := by
  induction js with
  | nil => intro cnt i h; simp at h
  | cons j rest ih =>
    intro cnt i h hv hp
    cases i with
    | zero =>
      simp only [List.getElem_cons_zero] at hv hp
      simp only [loadLoop, List.mem_append]
      left
      rw [loadStep_snd_dateErr (cnt + 1) j hv hp]
      simp
    | succ i2 =>
      simp only [List.getElem_cons_succ] at hv hp
      simp only [loadLoop, List.mem_append]
      right
      have e : cnt + (i2 + 1) + 1 = (cnt + 1) + i2 + 1 := by omega
      rw [e]
      exact ih (cnt + 1) i2 (by simpa using h) hv hp

theorem loadLoop_invalid_mem (js : List Json) : ∀ (cnt i : Nat) (h : i < js.length),
    validate_person js[i] = false → invalidMsg ∈ (loadLoop cnt js).2 := by
  induction js with
  | nil => intro cnt i h; simp at h
  | cons j rest ih =>
    intro cnt i h hv
    cases i with
    | zero =>
      simp only [List.getElem_cons_zero] at hv
      simp only [loadLoop, List.mem_append]
      left
      rw [loadStep_snd_invalid (cnt + 1) j hv]
      simp
    | succ i2 =>
      simp only [List.getElem_cons_succ] at hv
      simp only [loadLoop, List.mem_append]
      right
      exact ih (cnt + 1) i2 (by simpa using h) hv

theorem loadLoop_all_ok_snd (js : List Json) : ∀ cnt : Nat,
    (∀ j ∈ js, acceptPerson j ≠ none) → (loadLoop cnt js).2 = [] := by
  induction js with
  | nil => intro _ _; rfl
  | cons j rest ih =>
    intro cnt h
    simp only [loadLoop, List.append_eq_nil]
    exact ⟨loadStep_snd_ok (cnt + 1) j (h j (by simp)),
      ih (cnt + 1) (fun x hx => h x (by simp [hx]))⟩

/-! Sort lemmas. -/

theorem personLE_trans : ∀ a b c : Person,
    personLE a b = true → personLE b c = true → personLE a c = true := by
  intro a b c hab hbc
  simp only [personLE, decide_eq_true_eq] at hab hbc ⊢
  exact le_trans hab hbc

theorem personLE_total : ∀ a b : Person, (personLE a b || personLE b a) = true := by
  intro a b
  simp only [personLE, Bool.or_eq_true, decide_eq_true_eq]
  exact le_total _ _

theorem mergeSort_filter_key (l : List Person) (key : String) :
    (l.mergeSort personLE).filter (fun p => zodiacKeyStr p == key) =
      l.filter (fun p => zodiacKeyStr p == key) := by
  have hall : ∀ a ∈ l.filter (fun p => zodiacKeyStr p == key),
      (zodiacKeyStr a == key) = true := fun a ha => (List.mem_filter.mp ha).2
  have hsub : (l.filter (fun p => zodiacKeyStr p == key)).Sublist (l.mergeSort personLE) := by
    apply List.sublist_mergeSort personLE_trans personLE_total
    · apply List.pairwise_of_forall_mem_list
      intro a ha b hb
      have ha2 := (List.mem_filter.mp ha).2
      have hb2 := (List.mem_filter.mp hb).2
      rw [beq_iff_eq] at ha2 hb2
      simp [personLE, ha2, hb2]
    · exact List.filter_sublist l
  have hperm : ((l.mergeSort personLE).filter (fun p => zodiacKeyStr p == key)).Perm
      (l.filter (fun p => zodiacKeyStr p == key)) :=
    List.Perm.filter _ (List.mergeSort_perm l personLE)
  have hsub2 : (l.filter (fun p => zodiacKeyStr p == key)).Sublist
      ((l.mergeSort personLE).filter (fun p => zodiacKeyStr p == key)) := by
    have h2 := List.Sublist.filter (fun p => zodiacKeyStr p == key) hsub
    rwa [List.filter_eq_self.mpr hall] at h2
  exact (hsub2.eq_of_length (by rw [hperm.length_eq])).symm

/-! Association-list lemmas. -/

theorem pget_of_mem_nodup (p : Person) (kv : String × PValue)
    (hnd : (p.map Prod.fst).Nodup) (hm : kv ∈ p) : pget p kv.1 = some kv.2 := by
  induction p with
  | nil => simp at hm
  | cons hd tl ih =>
    rcases List.mem_cons.mp hm with he | ht
    · subst he
      simp [pget, List.find?_cons_of_pos]
    · have hne : kv.1 ≠ hd.1 := by
        intro he
        have hnotin : hd.1 ∉ tl.map Prod.fst := (List.nodup_cons.mp hnd).1
        exact hnotin (he ▸ List.mem_map_of_mem Prod.fst ht)
      have hb : (hd.1 == kv.1) = false :=
        beq_eq_false_iff_ne.mpr (fun he => hne he.symm)
      have htl := ih (List.nodup_cons.mp hnd).2 ht
      rw [pget] at htl ⊢
      rw [List.find?_cons_of_neg _ (by simp [hb])]
      exact htl

theorem saveFields_eq (d : Date) (p : Person)
    (h : p.all (fun kv => kv.1 == "date_of_birth" || (jsonOfPValue kv.2).isSome) = true) :
    saveFields d p = some (p.map (saveValue d)) := by
  induction p with
  | nil => rfl
  | cons kv rest ih =>
    simp only [List.all_cons, Bool.and_eq_true] at h
    have htail := ih h.2
    cases hk : kv.1 == "date_of_birth"
    · rcases h.1 with h1
      rw [hk] at h1
      simp only [Bool.false_or] at h1
      rcases hv : kv.2 with j | dd
      · simp [saveFields, saveValue, hk, htail, hv, jsonOfPValue]
      · rw [hv] at h1
        simp [jsonOfPValue] at h1
    · simp [saveFields, saveValue, hk, htail]

theorem lookup_map_saveValue (p : Person) (d : Date) (k : String) :
    lookupJ (p.map (saveValue d)) k =
      (p.find? (fun kv => kv.1 == k)).map (fun kv => (saveValue d kv).2) := by
  rw [lookupJ, List.find?_map]
  have he : ((fun kv : String × Json => kv.1 == k) ∘ saveValue d) =
      (fun kv : String × PValue => kv.1 == k) := by
    funext kv
    rfl
  rw [he, Option.map_map]
  rfl

theorem pget_setParsedDate (fields : List (String × Json)) (d : Date) (k : String) :
    pget (setParsedDate fields d) k =
      (fields.find? (fun kv => kv.1 == k)).map (fun kv =>
        if kv.1 == "date_of_birth" then PValue.date d else PValue.js kv.2) := by
  rw [pget, setParsedDate]
  have hf : (fields.map (fun kv =>
      if kv.1 == "date_of_birth" then (kv.1, PValue.date d) else (kv.1, PValue.js kv.2))) =
      fields.map (fun kv => (kv.1,
        if kv.1 == "date_of_birth" then PValue.date d else PValue.js kv.2)) := by
    apply List.map_congr_left
    intro kv _
    by_cases h : (kv.1 == "date_of_birth") = true <;> simp [h]
  rw [hf, List.find?_map]
  have he : ((fun kv : String × PValue => kv.1 == k) ∘ (fun kv : String × Json => (kv.1,
      if kv.1 == "date_of_birth" then PValue.date d else PValue.js kv.2))) =
      (fun kv : String × Json => kv.1 == k) := by
    funext kv
    rfl
  rw [he, Option.map_map]
  rfl

/-! Month-selection lemmas. -/

theorem selectLoop_spec (ps : List Person) : ∀ (count : Nat) (month : Int),
    (∀ p ∈ ps, (personMonthOpt p).isSome = true) →
    selectLoop count month ps =
      some (count + (ps.filter (matchesMonth month)).length,
        numberedFrom count (ps.filter (matchesMonth month))) := by
  induction ps with
  | nil =>
    intro count month _
    simp [selectLoop, numberedFrom]
  | cons p rest ih =>
    intro count month h
    have hp := h p (by simp)
    rcases hmo : personMonthOpt p with _ | mo
    · rw [hmo] at hp
      simp at hp
    · have hmem : ∀ q ∈ rest, (personMonthOpt q).isSome = true :=
        fun q hq => h q (List.mem_cons_of_mem p hq)
      simp only [selectLoop, hmo]
      cases hm : ((mo : Int) == month)
      · have hmm : matchesMonth month p = false := by
          rw [matchesMonth, hmo]
          exact hm
        rw [if_neg (by simp [hm])]
        rw [ih count month hmem]
        simp [List.filter_cons, hmm]
      · have hmm : matchesMonth month p = true := by
          rw [matchesMonth, hmo]
          exact hm
        rw [if_pos (by simp [hm])]
        rw [ih (count + 1) month hmem]
        simp only [List.filter_cons, hmm, if_true, List.length_cons, numberedFrom,
          Option.some.injEq, Prod.mk.injEq]
        exact ⟨by omega, trivial⟩

/-! Per-person save/load round-trip lemmas. -/

theorem isStrField_elim (o : Option PValue)
    (h : (match o with
          | some (PValue.js (Json.str _)) => true
          | _ => false) = true) :
    ∃ s, o = some (PValue.js (Json.str s)) := by
  rcases o with _ | v
  · simp at h
  · rcases v with j | dd
    · rcases j with _ | b | n | s | a | fs
      · simp at h
      · simp at h
      · simp at h
      · exact ⟨s, rfl⟩
      · simp at h
      · simp at h
    · simp at h

theorem hasValidDate_elim (p : Person) (h : hasValidDate p = true) :
    ∃ d, pget p "date_of_birth" = some (PValue.date d) ∧ d.valid = true := by
  rw [hasValidDate] at h
  rcases e : pget p "date_of_birth" with _ | v
  · rw [e] at h
    simp at h
  · rcases v with j | dd
    · rw [e] at h
      simp at h
    · rw [e] at h
      exact ⟨dd, rfl, h⟩

theorem WFperson_parts (p : Person) (h : WFperson p = true) :
    (∃ s1, pget p "name" = some (PValue.js (Json.str s1))) ∧
    (∃ s2, pget p "surname" = some (PValue.js (Json.str s2))) ∧
    (∃ s3, pget p "zodiac_sign" = some (PValue.js (Json.str s3))) ∧
    (∃ d, pget p "date_of_birth" = some (PValue.date d) ∧ d.valid = true) ∧
    (p.map Prod.fst).Nodup ∧
    p.all (fun kv => kv.1 == "date_of_birth" || (jsonOfPValue kv.2).isSome) = true := by
  rw [WFperson] at h
  simp only [Bool.and_eq_true, decide_eq_true_eq] at h
  obtain ⟨⟨⟨⟨⟨h1, h2⟩, h3⟩, h4⟩, h5⟩, h6⟩ := h
  exact ⟨isStrField_elim _ h1, isStrField_elim _ h2, isStrField_elim _ h3,
    hasValidDate_elim p h4, h5, h6⟩

theorem lookup_map_of_pget (p : Person) (d : Date) (k : String) (s : String)
    (hk : (k == "date_of_birth") = false)
    (hv : pget p k = some (PValue.js (Json.str s))) :
    lookupJ (p.map (saveValue d)) k = some (Json.str s) := by
  rw [lookup_map_saveValue]
  rw [pget] at hv
  rcases e : p.find? (fun kv => kv.1 == k) with _ | kv
  · rw [e] at hv
    simp at hv
  · rw [e] at hv
    simp only [Option.map_some'] at hv
    have hkk : kv.1 = k := by
      have hp := List.find?_some e
      rwa [beq_iff_eq] at hp
    have hv2 : kv.2 = PValue.js (Json.str s) := by
      injection hv
    rw [e]
    simp only [Option.map_some', saveValue, hkk, hk, hv2, Bool.false_eq_true, if_false]

theorem lookup_map_dob (p : Person) (d : Date) (v : PValue)
    (hv : pget p "date_of_birth" = some v) :
    lookupJ (p.map (saveValue d)) "date_of_birth" = some (Json.str (strftime_dmY d)) := by
  rw [lookup_map_saveValue]
  rw [pget] at hv
  rcases e : p.find? (fun kv => kv.1 == "date_of_birth") with _ | kv
  · rw [e] at hv
    simp at hv
  · have hkk : kv.1 = "date_of_birth" := by
      have hp := List.find?_some e
      rwa [beq_iff_eq] at hp
    rw [e]
    simp [Option.map_some', saveValue, hkk]

theorem setParsedDate_save (p : Person) (d : Date)
    (hd : pget p "date_of_birth" = some (PValue.date d))
    (hnd : (p.map Prod.fst).Nodup)
    (hall : p.all (fun kv => kv.1 == "date_of_birth" || (jsonOfPValue kv.2).isSome) = true) :
    setParsedDate (p.map (saveValue d)) d = p := by
  rw [setParsedDate, List.map_map]
  have hpt : ∀ kv ∈ p, ((fun kv : String × Json =>
      if kv.1 == "date_of_birth" then (kv.1, PValue.date d)
      else (kv.1, PValue.js kv.2)) ∘ saveValue d) kv = kv := by
    intro kv hm
    cases hk : kv.1 == "date_of_birth"
    · have hel := List.all_eq_true.mp hall kv hm
      rw [hk] at hel
      simp only [Bool.false_or] at hel
      rcases hv : kv.2 with j | dd
      · show (fun kv : String × Json =>
          if kv.1 == "date_of_birth" then (kv.1, PValue.date d)
          else (kv.1, PValue.js kv.2)) (saveValue d kv) = kv
        simp only [saveValue, hk, hv, Bool.false_eq_true, if_false]
        rw [Prod.ext_iff]
        exact ⟨rfl, hv.symm⟩
      · rw [hv] at hel
        simp [jsonOfPValue] at hel
    · have hkk : kv.1 = "date_of_birth" := by
        rwa [beq_iff_eq] at hk
      have hpk := pget_of_mem_nodup p kv hnd hm
      rw [hkk] at hpk
      rw [hd] at hpk
      have hv2 : kv.2 = PValue.date d := by
        injection hpk with hpk2
        exact hpk2.symm
      show (fun kv : String × Json =>
        if kv.1 == "date_of_birth" then (kv.1, PValue.date d)
        else (kv.1, PValue.js kv.2)) (saveValue d kv) = kv
      simp only [saveValue, hk, if_true]
      rw [Prod.ext_iff]
      exact ⟨rfl, hv2.symm⟩
  rw [List.map_congr_left hpt]
  simp

theorem roundtrip_one (p : Person) (h : WFperson p = true) :
    ∃ d : Date, pget p "date_of_birth" = some (PValue.date d) ∧
      save_person p = some (Json.obj (p.map (saveValue d))) ∧
      acceptPerson (Json.obj (p.map (saveValue d))) = some p := by
  obtain ⟨⟨s1, h1⟩, ⟨s2, h2⟩, ⟨s3, h3⟩, ⟨d, hd, hdv⟩, hnd, hall⟩ := WFperson_parts p h
  refine ⟨d, hd, ?_, ?_⟩
  · simp only [save_person, hd]
    rw [saveFields_eq d p hall]
    rfl
  · have hl1 := lookup_map_of_pget p d "name" s1 (by decide) h1
    have hl2 := lookup_map_of_pget p d "surname" s2 (by decide) h2
    have hl3 := lookup_map_of_pget p d "zodiac_sign" s3 (by decide) h3
    have hl4 := lookup_map_dob p d (PValue.date d) hd
    have hval : validate_person (Json.obj (p.map (saveValue d))) = true := by
      rw [validate_person_eq_spec]
      simp [validSchemaSpec, requiredKeys, hl1, hl2, hl3, hl4]
    rw [acceptPerson, if_pos hval]
    simp only [parsedOf, hl4]
    rw [strptime_strftime d hdv]
    simp only [Option.map_some']
    rw [setParsedDate_save p d hd hnd hall]

theorem save_load_aux (staff : List Person) (h : ∀ p ∈ staff, WFperson p = true) :
    ∃ out, save_people staff = some out ∧ out.filterMap acceptPerson = staff ∧
      ∀ j ∈ out, acceptPerson j ≠ none := by
  induction staff with
  | nil => exact ⟨[], rfl, rfl, by simp⟩
  | cons p rest ih =>
    obtain ⟨d, hd, hsave, hacc⟩ := roundtrip_one p (h p (by simp))
    obtain ⟨out, ho1, ho2, ho3⟩ := ih (fun q hq => h q (by simp [hq]))
    refine ⟨Json.obj (p.map (saveValue d)) :: out, ?_, ?_, ?_⟩
    · rw [save_people] at ho1 ⊢
      rw [List.mapM_cons, hsave, ho1]
      rfl
    · rw [List.filterMap_cons, hacc, ho2]
    · intro j hj
      rcases List.mem_cons.mp hj with he | hm
      · subst he
        rw [hacc]
        simp
      · exact ho3 j hm

/-! Claim theorems. -/

/-- C1: after any `add_person`, the returned collection is sorted
ascending by zodiac sign (every adjacent pair is ordered), and for every
zodiac key the records carrying it appear in the same order as in the
pre-sort list `people ++ [new record]` — so ties keep their relative
order and the appended record is last among its ties. -/
theorem add_person_sorted_stable (people : List Person)
    (name surname dob zodiac : String) (d : Date) (res : List Person)
    (hd : strptime_dmY dob = some d)
    (hres : add_person people name surname dob zodiac = some res) :
    List.Chain' (fun a b => zodiacKeyStr a ≤ zodiacKeyStr b) res ∧
    ∀ key : String, res.filter (fun p => zodiacKeyStr p == key) =
      (people ++ [mkPerson name surname d zodiac]).filter
        (fun p => zodiacKeyStr p == key) := by
  simp only [add_person, hd] at hres
  have hres2 : res = (people ++ [mkPerson name surname d zodiac]).mergeSort personLE :=
    (Option.some.injEq _ _ ▸ hres :
      (people ++ [mkPerson name surname d zodiac]).mergeSort personLE = res).symm
  subst hres2
  constructor
  · have hp := List.sorted_mergeSort personLE_trans personLE_total
      (people ++ [mkPerson name surname d zodiac])
    refine List.Pairwise.chain' (hp.imp ?_)
    intro a b hab
    simpa [personLE, decide_eq_true_eq] using hab
  · intro key
    exact mergeSort_filter_key _ key

/-- Witness for C1 at a concrete add on the empty collection. -/
theorem add_person_sorted_stable_witness :
    List.Chain' (fun a b => zodiacKeyStr a ≤ zodiacKeyStr b)
      [mkPerson "Anna" "Ivanova" ⟨1990, 3, 15⟩ "Pisces"] ∧
    [mkPerson "Anna" "Ivanova" ⟨1990, 3, 15⟩ "Pisces"].filter
        (fun p => zodiacKeyStr p == "Pisces") =
      (([] : List Person) ++ [mkPerson "Anna" "Ivanova" ⟨1990, 3, 15⟩ "Pisces"]).filter
        (fun p => zodiacKeyStr p == "Pisces") := by
  have hs : strptime_dmY "15.03.1990" = some ⟨1990, 3, 15⟩ := rfl
  have hres : add_person [] "Anna" "Ivanova" "15.03.1990" "Pisces" =
      some [mkPerson "Anna" "Ivanova" ⟨1990, 3, 15⟩ "Pisces"] := by
    simp only [add_person, hs, List.nil_append, List.mergeSort_singleton]
  have h := add_person_sorted_stable [] "Anna" "Ivanova" "15.03.1990" "Pisces"
    ⟨1990, 3, 15⟩ [mkPerson "Anna" "Ivanova" ⟨1990, 3, 15⟩ "Pisces"] hs hres
  exact ⟨h.1, h.2 "Pisces"⟩

/-- C2: on a decoded JSON array, load returns exactly the subsequence of
elements accepted by validation-plus-date-parse, in file order; a
validated element whose date fails to parse contributes the diagnostic
naming its 1-based position, and an invalid element contributes the skip
diagnostic; the loop itself is total (every exception is caught). -/
theorem load_people_tolerant (js : List Json) :
    (load_people js).1 = js.filterMap acceptPerson ∧
    (∀ i (h : i < js.length), validate_person js[i] = true → parsedOf js[i] = none →
      dateErrMsg (i + 1) ∈ (load_people js).2) ∧
    (∀ i (h : i < js.length), validate_person js[i] = false →
      invalidMsg ∈ (load_people js).2) := by
  refine ⟨loadLoop_fst js 0, ?_, ?_⟩
  · intro i h hv hp
    have hm := loadLoop_dateErr_mem js 0 i h hv hp
    simpa using hm
  · intro i h hv
    exact loadLoop_invalid_mem js 0 i h hv

/-- Witness for C2: a single validated record with an impossible date is
dropped and logged with its position. -/
theorem load_people_tolerant_witness :
    dateErrMsg 1 ∈ (load_people [exBadDate]).2 ∧
    (load_people [exBadDate]).1 = [] := by
  constructor
  · have hm := (load_people_tolerant [exBadDate]).2.1 0 (by simp) rfl rfl
    simpa using hm
  · rw [(load_people_tolerant [exBadDate]).1]
    rfl

/-- C3 counterexample: a record with an extra key and a date string that
is not interpretable as a calendar date still validates, refuting both
the exactly-the-required-keys reading and the date-format check. -/
theorem validate_person_claim_cex :
    validate_person cexRecord = true ∧ keysExactlyRequired cexRecord = false ∧
    dateFieldParses cexRecord = false :=
  ⟨rfl, rfl, rfl⟩

/-- C3 (amended): `validate_person` returns true exactly on JSON objects
whose four required keys are present and string-typed; extra keys are
permitted and no date-format check is applied to the stored string. -/
theorem validate_person_amended (j : Json) : validate_person j = validSchemaSpec j :=
  validate_person_eq_spec j

/-- C6: when the date text does not parse, `add_person` aborts before
appending, so no new collection is produced and the input collection is
left as it was. -/
theorem add_person_bad_date (people : List Person)
    (name surname dob zodiac : String) (h : strptime_dmY dob = none) :
    add_person people name surname dob zodiac = none := by
  rw [add_person, h]

/-- Witness for C6 on the nonexistent 31st of February. -/
theorem add_person_bad_date_witness :
    strptime_dmY "31.02.2000" = none ∧
    add_person [] "Ivan" "Petrov" "31.02.2000" "Leo" = none :=
  ⟨rfl, add_person_bad_date [] "Ivan" "Petrov" "31.02.2000" "Leo" rfl⟩

/-- C7: on any JSON input `validate_person` returns a boolean verdict —
true with no diagnostic, or false together with a diagnostic naming the
schema violation; the embedding is a total function because the only
exception `jsonschema.validate` raises for an instance is caught. -/
theorem validate_person_total_verdict (j : Json) :
    (validate_person j = true ∧ validateDiag j = []) ∨
    (validate_person j = false ∧ ∃ e, schemaError j = some e ∧
      validateDiag j = [schemaErrMsg e]) := by
  rcases hs : schemaError j with _ | e
  · left
    exact ⟨by simp [validate_person, hs], by simp [validateDiag, hs]⟩
  · right
    exact ⟨by simp [validate_person, hs], e, rfl, by simp [validateDiag, hs]⟩

/-- C4: for a collection of well-formed records, `save_people` succeeds
and `load_people` on its output returns exactly the same records — every
field value, the parsed calendar date included, survives the
serialization to padded day.month.year text and the re-parse — with no
diagnostics. -/
theorem save_load_roundtrip (staff : List Person)
    (h : ∀ p ∈ staff, WFperson p = true) :
    ∃ out, save_people staff = some out ∧ load_people out = (staff, []) := by
  obtain ⟨out, h1, h2, h3⟩ := save_load_aux staff h
  refine ⟨out, h1, ?_⟩
  have hf := loadLoop_fst out 0
  have hs := loadLoop_all_ok_snd out 0 h3
  rw [load_people]
  have hpair : loadLoop 0 out = ((loadLoop 0 out).1, (loadLoop 0 out).2) := rfl
  rw [hpair, hf, h2, hs]

/-- Witness for C4 on a one-record collection. -/
theorem save_load_roundtrip_witness :
    ∃ out, save_people [mkPerson "Anna" "Ivanova" ⟨1990, 3, 15⟩ "Pisces"] = some out ∧
      load_people out = ([mkPerson "Anna" "Ivanova" ⟨1990, 3, 15⟩ "Pisces"], []) :=
  save_load_roundtrip [mkPerson "Anna" "Ivanova" ⟨1990, 3, 15⟩ "Pisces"] (by decide)

/-- C5: on records holding parsed representable dates, `select_people`
prints exactly the records whose birth month equals the requested one,
in input order and numbered from 1, and prints the distinct no-matches
notice when nothing matches — in particular for any month outside 1..12,
which can match no record. -/
theorem select_people_spec (people : List Person) (month : Int)
    (h : ∀ p ∈ people, hasValidDate p = true) :
    ∃ out, select_people people month = some out ∧
      out = (if (people.filter (matchesMonth month)).isEmpty then [noMatchMsg]
             else numberedFrom 0 (people.filter (matchesMonth month))) ∧
      ((month < 1 ∨ 12 < month) → out = [noMatchMsg]) := by
  have hiso : ∀ p ∈ people, (personMonthOpt p).isSome = true := by
    intro p hp
    obtain ⟨d, hd, _⟩ := hasValidDate_elim p (h p hp)
    simp [personMonthOpt, hd]
  have hloop := selectLoop_spec people 0 month hiso
  refine ⟨_, by rw [select_people, hloop], ?_, ?_⟩
  · rcases hfe : people.filter (matchesMonth month) with _ | ⟨q, qs⟩
    · simp [numberedFrom]
    · simp
  · intro hrange
    have hnone : people.filter (matchesMonth month) = [] := by
      rw [List.filter_eq_nil_iff]
      intro p hp
      obtain ⟨dd, hd2, hv2⟩ := hasValidDate_elim p (h p hp)
      rw [Date.valid, decide_eq_true_eq] at hv2
      have hpm : personMonthOpt p = some dd.month := by
        simp [personMonthOpt, hd2]
      simp only [matchesMonth, hpm, Bool.not_eq_true, beq_eq_false_iff_ne]
      intro he
      omega
    simp [hnone, numberedFrom]

/-- Witness for C5: one record born in March, queried for month 3. -/
theorem select_people_spec_witness :
    ∃ out, select_people [mkPerson "Anna" "Ivanova" ⟨1990, 3, 15⟩ "Pisces"] 3 = some out ∧
      out = (if ([mkPerson "Anna" "Ivanova" ⟨1990, 3, 15⟩ "Pisces"].filter
              (matchesMonth 3)).isEmpty then [noMatchMsg]
             else numberedFrom 0 ([mkPerson "Anna" "Ivanova" ⟨1990, 3, 15⟩ "Pisces"].filter
              (matchesMonth 3))) ∧
      (((3 : Int) < 1 ∨ 12 < (3 : Int)) → out = [noMatchMsg]) :=
  select_people_spec [mkPerson "Anna" "Ivanova" ⟨1990, 3, 15⟩ "Pisces"] 3 (by decide)

/-- C8: day and month numbers are accepted without zero padding (the
year must still be four digits), the parsed date is the corresponding
calendar date, `add_person` accepts such text, and the `strftime`
re-rendering is the fully padded ten-character day.month.year form,
which parses back to the same date. -/
theorem date_parsing_unpadded (dt : Date) (h : dt.valid = true) :
    strptime_dmY (unpaddedDMY dt) = some dt ∧
    strptime_dmY (strftime_dmY dt) = some dt ∧
    (strftime_dmY dt).length = 10 ∧
    ∀ (people : List Person) (name surname zodiac : String),
      add_person people name surname (unpaddedDMY dt) zodiac =
        some ((people ++ [mkPerson name surname dt zodiac]).mergeSort personLE) := by
  refine ⟨strptime_unpadded dt h, strptime_strftime dt h, ?_, ?_⟩
  · have hb := h
    rw [Date.valid, decide_eq_true_eq] at hb
    obtain ⟨hy1, hy2, hm1, hm2, hd1, hd2⟩ := hb
    have hdm : daysInMonth dt.year dt.month ≤ 31 := by
      rw [daysInMonth]
      split
      · split <;> omega
      · split <;> omega
    have hdl : (padZeros 2 (natDigits dt.day)).length = 2 := by
      rw [length_padZeros]
      have := natDigits_length_le 2 dt.day (by omega) (by omega)
      have := natDigits_length_pos dt.day
      omega
    have hml : (padZeros 2 (natDigits dt.month)).length = 2 := by
      rw [length_padZeros]
      have := natDigits_length_le 2 dt.month (by omega) (by omega)
      have := natDigits_length_pos dt.month
      omega
    have hyl : (padZeros 4 (natDigits dt.year)).length = 4 := by
      rw [length_padZeros]
      have := natDigits_length_le 4 dt.year (by omega) (by omega)
      have := natDigits_length_pos dt.year
      omega
    have hlen : (strftime_dmY dt).length = (strftime_dmY dt).data.length := rfl
    have hdata : (strftime_dmY dt).data = padZeros 2 (natDigits dt.day) ++ '.' ::
        (padZeros 2 (natDigits dt.month) ++ '.' :: padZeros 4 (natDigits dt.year)) := rfl
    rw [hlen, hdata]
    simp only [List.length_append, List.length_cons, hdl, hml, hyl]
  · intro people name surname zodiac
    rw [add_person, strptime_unpadded dt h]

/-- Witness for C8 on the unpadded text 1.1.1985. -/
theorem date_parsing_unpadded_witness :
    strptime_dmY (unpaddedDMY ⟨1985, 1, 1⟩) = some ⟨1985, 1, 1⟩ ∧
    strptime_dmY (strftime_dmY ⟨1985, 1, 1⟩) = some ⟨1985, 1, 1⟩ ∧
    (strftime_dmY ⟨1985, 1, 1⟩).length = 10 ∧
    add_person [] "Boris" "Petrov" (unpaddedDMY ⟨1985, 1, 1⟩) "Aquarius" =
      some (([] ++ [mkPerson "Boris" "Petrov" ⟨1985, 1, 1⟩ "Aquarius"]).mergeSort personLE) := by
  have h := date_parsing_unpadded ⟨1985, 1, 1⟩ (by decide)
  exact ⟨h.1, h.2.1, h.2.2.1, h.2.2.2 [] "Boris" "Petrov" "Aquarius"⟩

/-- C9: the state-passing reading of `save_people` hands every stored
dict back unchanged — the day.month.year text conversion happens only on
the fresh dicts built by the comprehension — and produces the same
serialized output as `save_people`. -/
theorem save_people_no_mutation (staff : List Person) :
    (save_people_run staff).2 = staff ∧ (save_people_run staff).1 = save_people staff := by
  induction staff with
  | nil => exact ⟨rfl, rfl⟩
  | cons p rest ih =>
    refine ⟨?_, ?_⟩
    · show p :: (save_people_run rest).2 = p :: rest
      rw [ih.1]
    · show (match save_person p, (save_people_run rest).1 with
        | some j, some js => some (j :: js)
        | _, _ => none) = save_people (p :: rest)
      rw [ih.2]
      simp only [save_people]
      rw [List.mapM_cons]
      cases hp2 : save_person p <;> cases hr : rest.mapM save_person <;>
        simp [hp2, hr]

/-- C10: a validated record with extra keys is loaded with every extra
entry intact (only `date_of_birth` is replaced by the parsed date, in
place), and saving it writes every entry back unchanged apart from the
re-rendered date. -/
theorem extra_keys_roundtrip (fields : List (String × Json)) (s : String) (d : Date)
    (hv : validate_person (Json.obj fields) = true)
    (hdob : lookupJ fields "date_of_birth" = some (Json.str s))
    (hparse : strptime_dmY s = some d) :
    acceptPerson (Json.obj fields) = some (setParsedDate fields d) ∧
    (∀ k : String, k ≠ "date_of_birth" →
      pget (setParsedDate fields d) k = (lookupJ fields k).map PValue.js) ∧
    save_person (setParsedDate fields d) =
      some (Json.obj (fields.map (fun kv =>
        if kv.1 == "date_of_birth" then (kv.1, Json.str (strftime_dmY d)) else kv))) ∧
    ∀ rest : List Json, (load_people (Json.obj fields :: rest)).1 =
      setParsedDate fields d :: (load_people rest).1 := by
  have hacc : acceptPerson (Json.obj fields) = some (setParsedDate fields d) := by
    rw [acceptPerson, if_pos hv]
    simp only [parsedOf, hdob]
    rw [hparse]
    rfl
  refine ⟨hacc, ?_, ?_, ?_⟩
  · intro k hk
    rw [pget_setParsedDate, lookupJ]
    rcases e : fields.find? (fun kv => kv.1 == k) with _ | kv
    · rw [e]
      rfl
    · rw [e]
      have hkk : kv.1 = k := by
        have hp := List.find?_some e
        rwa [beq_iff_eq] at hp
      have hkne : (kv.1 == "date_of_birth") = false :=
        beq_eq_false_iff_ne.mpr (by rw [hkk]; exact hk)
      simp [hkne]
      exact fun he => hk (hkk.symm.trans he)
  · have hg : pget (setParsedDate fields d) "date_of_birth" = some (PValue.date d) := by
      rw [pget_setParsedDate]
      rw [lookupJ] at hdob
      rcases e : fields.find? (fun kv => kv.1 == "date_of_birth") with _ | kv
      · rw [e] at hdob
        simp at hdob
      · rw [e]
        have hkk : kv.1 = "date_of_birth" := by
          have hp := List.find?_some e
          rwa [beq_iff_eq] at hp
        simp [hkk]
    have hall : (setParsedDate fields d).all
        (fun kv => kv.1 == "date_of_birth" || (jsonOfPValue kv.2).isSome) = true := by
      rw [setParsedDate, List.all_eq_true]
      intro kv hm
      obtain ⟨kv0, hkv0, rfl⟩ := List.mem_map.mp hm
      cases hk : kv0.1 == "date_of_birth" <;> simp [hk, jsonOfPValue]
    simp only [save_person, hg]
    rw [saveFields_eq d _ hall]
    have hmap : (setParsedDate fields d).map (saveValue d) =
        fields.map (fun kv =>
          if kv.1 == "date_of_birth" then (kv.1, Json.str (strftime_dmY d)) else kv) := by
      rw [setParsedDate, List.map_map]
      apply List.map_congr_left
      intro kv _
      cases hk : kv.1 == "date_of_birth" <;>
        simp [Function.comp, hk, saveValue]
    rw [hmap]
    rfl
  · intro rest
    rw [load_people, load_people, loadLoop_fst, loadLoop_fst]
    simp only [List.filterMap_cons, hacc]

/-- Witness for C10 on a record carrying the extra key note. -/
theorem extra_keys_roundtrip_witness :
    acceptPerson (Json.obj exFieldsX) = some (setParsedDate exFieldsX ⟨1990, 3, 15⟩) ∧
    pget (setParsedDate exFieldsX ⟨1990, 3, 15⟩) "note" =
      (lookupJ exFieldsX "note").map PValue.js ∧
    save_person (setParsedDate exFieldsX ⟨1990, 3, 15⟩) =
      some (Json.obj (exFieldsX.map (fun kv =>
        if kv.1 == "date_of_birth" then (kv.1, Json.str (strftime_dmY ⟨1990, 3, 15⟩))
        else kv))) ∧
    (load_people [Json.obj exFieldsX]).1 =
      setParsedDate exFieldsX ⟨1990, 3, 15⟩ :: (load_people []).1 := by
  have h := extra_keys_roundtrip exFieldsX "15.03.1990" ⟨1990, 3, 15⟩ rfl rfl rfl
  exact ⟨h.1, h.2.1 "note" (by decide), h.2.2.1, h.2.2.2 []⟩

end Data3
